import Mathlib

/-!
Shallow embedding of `src/buffer/highlighter.rs` (incremental line-oriented
syntax highlighter).  Bytes are modelled as `Nat`, byte buffers as `List Nat`,
and the document collaborator as the full byte content of the document, with
`read_forward` serving the whole remainder as a single chunk (a valid
instance of the `ReadableDocument` interface).  All loops of the source are
embedded either structurally or with an explicit fuel parameter; fuel
sufficiency is proved separately.
-/

namespace Highlighter

/-- 1 MiB, the `MEBI` constant from `helpers.rs` used as the line-length cap. -/
def MEBI : Nat := 1048576

/-- `u8::is_ascii_whitespace`: space, tab, LF, FF, CR. -/
def isWs (b : Nat) : Bool := b == 32 || b == 9 || b == 10 || b == 12 || b == 13

/-- `u8::is_ascii_alphanumeric`. -/
def isAlnum (b : Nat) : Bool :=
  (48 ≤ b && b ≤ 57) || (65 ≤ b && b ≤ 90) || (97 ≤ b && b ≤ 122)

/-- `u8::is_ascii_digit`. -/
def isDigit (b : Nat) : Bool := 48 ≤ b && b ≤ 57

/-- `TokenKind` from the source: closed set of highlight categories. -/
inductive TokenKind where
  | Other
  | Comment
  | Keyword
  | Operator
  | Number
  | String
  | Variable
deriving DecidableEq, Repr

/-- `Token { range, kind }`: `lo`/`hi` are the half-open byte range
(`range.start`/`range.end`) into the document. -/
structure Token where
  lo : Nat
  hi : Nat
  kind : TokenKind
deriving DecidableEq, Repr

/-- `Test` from the source.  The `Prefix` variant is named `Pfx` here; its
payload is the literal's byte sequence. -/
inductive Test where
  | Always
  | LineEnd
  | Pfx (p : List Nat)
  | Word (w : List Nat)
  | NonAlpha
  | NonDigit
deriving DecidableEq, Repr

/-- `Transition { enter, exit, kind }`: one grammar rule. -/
structure Transition where
  enter : Test
  exit : Test
  kind : TokenKind
deriving DecidableEq, Repr

/-- `Transition::default()`: enter `Always`, exit `Always`, kind `Other`. -/
def defaultT : Transition := ⟨Test.Always, Test.Always, TokenKind.Other⟩

/-- Ground state 0 of the `POWERSHELL` grammar table, transcribed entry by
entry from the source (string literals written as their byte sequences). -/
def POWERSHELL0 : List Transition := [
  -- Comments
  ⟨Test.Pfx [35], Test.LineEnd, TokenKind.Comment⟩,                 -- "#"
  ⟨Test.Pfx [60, 35], Test.Pfx [35, 62], TokenKind.Comment⟩,       -- "<#" .. "#>"
  -- Keywords
  ⟨Test.Word [98, 114, 101, 97, 107], Test.Always, TokenKind.Keyword⟩,        -- "break"
  ⟨Test.Word [99, 97, 116, 99, 104], Test.Always, TokenKind.Keyword⟩,         -- "catch"
  ⟨Test.Word [99, 111, 110, 116, 105, 110, 117, 101], Test.Always, TokenKind.Keyword⟩, -- "continue"
  ⟨Test.Word [100, 111], Test.Always, TokenKind.Keyword⟩,                     -- "do"
  ⟨Test.Word [101, 108, 115, 101], Test.Always, TokenKind.Keyword⟩,           -- "else"
  ⟨Test.Word [102, 105, 110, 97, 108, 108, 121], Test.Always, TokenKind.Keyword⟩, -- "finally"
  ⟨Test.Word [102, 111, 114, 101, 97, 99, 104], Test.Always, TokenKind.Keyword⟩,  -- "foreach"
  ⟨Test.Word [102, 117, 110, 99, 116, 105, 111, 110], Test.Always, TokenKind.Keyword⟩, -- "function"
  ⟨Test.Word [105, 102], Test.Always, TokenKind.Keyword⟩,                     -- "if"
  ⟨Test.Word [114, 101, 116, 117, 114, 110], Test.Always, TokenKind.Keyword⟩, -- "return"
  ⟨Test.Word [115, 119, 105, 116, 99, 104], Test.Always, TokenKind.Keyword⟩,  -- "switch"
  ⟨Test.Word [116, 104, 114, 111, 119], Test.Always, TokenKind.Keyword⟩,      -- "throw"
  ⟨Test.Word [116, 114, 121], Test.Always, TokenKind.Keyword⟩,                -- "try"
  ⟨Test.Word [117, 115, 105, 110, 103], Test.Always, TokenKind.Keyword⟩,      -- "using"
  ⟨Test.Word [119, 104, 105, 108, 101], Test.Always, TokenKind.Keyword⟩,      -- "while"
  -- Operators
  ⟨Test.Pfx [61, 61], Test.Always, TokenKind.Operator⟩,    -- "=="
  ⟨Test.Pfx [33, 61], Test.Always, TokenKind.Operator⟩,    -- "!="
  ⟨Test.Pfx [38, 38], Test.Always, TokenKind.Operator⟩,    -- "&&"
  ⟨Test.Pfx [124, 124], Test.Always, TokenKind.Operator⟩,  -- "||"
  ⟨Test.Pfx [60, 61], Test.Always, TokenKind.Operator⟩,    -- "<="
  ⟨Test.Pfx [62, 61], Test.Always, TokenKind.Operator⟩,    -- ">="
  ⟨Test.Pfx [43, 43], Test.Always, TokenKind.Operator⟩,    -- "++"
  ⟨Test.Pfx [45, 45], Test.Always, TokenKind.Operator⟩,    -- "--"
  ⟨Test.Pfx [61], Test.Always, TokenKind.Operator⟩,        -- "="
  ⟨Test.Pfx [60], Test.Always, TokenKind.Operator⟩,        -- "<"
  ⟨Test.Pfx [62], Test.Always, TokenKind.Operator⟩,        -- ">"
  ⟨Test.Pfx [43], Test.Always, TokenKind.Operator⟩,        -- "+"
  ⟨Test.Pfx [45], Test.Always, TokenKind.Operator⟩,        -- "-"
  ⟨Test.Pfx [42], Test.Always, TokenKind.Operator⟩,        -- "*"
  ⟨Test.Pfx [47], Test.Always, TokenKind.Operator⟩,        -- "/"
  ⟨Test.Pfx [37], Test.Always, TokenKind.Operator⟩,        -- "%"
  ⟨Test.Pfx [33], Test.Always, TokenKind.Operator⟩,        -- "!"
  -- Numbers (none)
  -- Strings
  ⟨Test.Pfx [39], Test.Pfx [39], TokenKind.String⟩,        -- "'"
  ⟨Test.Pfx [34], Test.Pfx [34], TokenKind.String⟩,        -- "\""
  -- Variables
  ⟨Test.Pfx [36], Test.NonAlpha, TokenKind.Variable⟩]      -- "$"

/-- `while off_end < len && line[off_end].is_ascii_whitespace() { off_end += 1 }`. -/
def skipWs (line : List Nat) (i : Nat) : Nat :=
  i + ((line.drop i).takeWhile isWs).length

/-- `while off_end < len && !line[off_end].is_ascii_whitespace() { off_end += 1 }`. -/
def skipNonWs (line : List Nat) (i : Nat) : Nat :=
  i + ((line.drop i).takeWhile (fun b => !isWs b)).length

/-- The `Test::NonAlpha` exit scan: consume ASCII alphanumerics and bytes ≥ 0x80. -/
def skipAlnumHi (line : List Nat) (i : Nat) : Nat :=
  i + ((line.drop i).takeWhile (fun b => isAlnum b || 128 ≤ b)).length

/-- The `Test::NonDigit` exit scan: consume ASCII digits. -/
def skipDigits (line : List Nat) (i : Nat) : Nat :=
  i + ((line.drop i).takeWhile isDigit).length

/-- The `for t in POWERSHELL[0]` enter-matching loop: first match wins.
Returns the selected transition and the scan offset after consuming the
enter match.  Only `Always` and `Pfx` are evaluated; all other enter
tests fall through (`_ => {}` in the source). -/
def matchEnter (line : List Nat) (i : Nat) : List Transition → Option (Transition × Nat)
  | [] => none
  | t :: ts =>
    match t.enter with
    | Test.Always => some (t, i)
    | Test.Pfx p =>
      if p.isPrefixOf (line.drop i) then some (t, i + p.length)
      else matchEnter line i ts
    | _ => matchEnter line i ts

/-- Result of the `'inner` enter loop: either end of line was reached while
skipping whitespace (`break 'outer`), or a transition matched at word start
`b` with scan offset `k` after the match, or an unmatched word starting at
`b` ran to end of line `k` (`break 'inner` with the state unchanged). -/
inductive EnterRes where
  | lineDone
  | matched (t : Transition) (b k : Nat)
  | trailing (b k : Nat)
deriving DecidableEq, Repr

/-- The `'inner` enter loop (source lines 174–207), with fuel.  Each
iteration skips whitespace, tries the table at the word start, and on
failure skips the unmatched word and retries. -/
def enterLoopF (line : List Nat) : Nat → Nat → Option EnterRes
  | 0, _ => none
  | f + 1, i =>
    let j := skipWs line i
    if j < line.length then
      match matchEnter line j POWERSHELL0 with
      | some (t, k) => some (EnterRes.matched t j k)
      | none =>
        let k := skipNonWs line j
        if k < line.length then enterLoopF line f k
        else some (EnterRes.trailing j k)
    else some EnterRes.lineDone

/-- The `Test::Prefix` exit loop (source lines 216–233), with fuel: scan
word by word for the closing literal.  Returns `(true, off)` when the
closer was found and consumed (state resets), `(false, off)` when end of
line was reached without it (span stays open). -/
def exitPfxF (p line : List Nat) : Nat → Nat → Option (Bool × Nat)
  | 0, _ => none
  | f + 1, i =>
    let j := skipWs line i
    if p.isPrefixOf (line.drop j) then some (true, j + p.length)
    else
      let k := skipNonWs line j
      if k < line.length then exitPfxF p line f k
      else some (false, k)

/-- The exit phase (source lines 210–248): dispatch on the selected
transition's exit test; returns the new carried state and scan offset.
Mirrors the source exactly: in every closing branch the carried state is
reset to the default *before* the token is pushed. -/
def runExit (line : List Nat) (st : Transition) (i : Nat) : Option (Transition × Nat) :=
  match st.exit with
  | Test.Always => some (defaultT, i)
  | Test.LineEnd => some (defaultT, line.length)
  | Test.Pfx p =>
    (exitPfxF p line (line.length + 1) i).map
      (fun r => (if r.1 then defaultT else st, r.2))
  | Test.Word _ => some (defaultT, i)
  | Test.NonAlpha => some (defaultT, skipAlnumHi line i)
  | Test.NonDigit => some (defaultT, skipDigits line i)

/-- The `'outer` matching loop (source lines 170–258), with fuel.  `lo` is
`line_offset`, `i` is `off_end`, `st` is `self.state`.  The pushed token's
kind is `self.state.kind` *after* the exit phase ran, exactly as in the
source (`kind: self.state.kind` at line 252). -/
def scanAuxF (line : List Nat) (lo : Nat) : Nat → Nat → Transition → Option (List Token × Transition)
  | 0, _, _ => none
  | f + 1, i, st =>
    let step : Transition → Nat → Nat → Option (List Token × Transition) := fun t b k =>
      match runExit line t k with
      | none => none
      | some (st2, e) =>
        let tok : Token := ⟨lo + b, lo + e, st2.kind⟩
        if line.length ≤ e then some ([tok], st2)
        else
          match scanAuxF line lo f e st2 with
          | none => none
          | some (ts, stf) => some (tok :: ts, stf)
    if st.enter = Test.Always then
      match enterLoopF line (line.length + 1) i with
      | none => none
      | some EnterRes.lineDone => some ([], st)
      | some (EnterRes.matched t b k) => step t b k
      | some (EnterRes.trailing b k) => step st b k
    else step st i i

/-- The matching engine on one (already assembled and stripped) line:
the `'outer` loop run from offset 0, with fuel `2 * length + 2`
(proved sufficient below). -/
def scanLineO (line : List Nat) (lo : Nat) (st : Transition) : Option (List Token × Transition) :=
  scanAuxF line lo (2 * line.length + 2) 0 st

/-- Total version of the matching engine; the default is never used since
the fuel is sufficient (see `scanAuxF_isSome_of_le`). -/
def scanLine (line : List Nat) (lo : Nat) (st : Transition) : List Token × Transition :=
  (scanLineO line lo st).getD ([], st)

/-- Modelled from the spec: the document collaborator's
`read_forward(offset)` (the `ReadableDocument` trait is not under `src/`).
The document is its full byte content and `read_forward` returns the whole
remainder from `offset` as one chunk, empty exactly at end of document. -/
def readForward (doc : List Nat) (offset : Nat) : List Nat := doc.drop offset

/-- Modelled from the spec: `unicode::newlines_forward(chunk, 0, 0, 1)`
(the `unicode` module is not under `src/`).  Returns the offset just past
the first line terminator (LF, CRLF, or CR) and whether one was found;
if none is found it returns the chunk length. -/
def newlinesForward : List Nat → Nat × Bool
  | [] => (0, false)
  | b :: rest =>
    if b = 10 then (1, true)
    else if b = 13 then (if rest.head? = some 10 then (2, true) else (1, true))
    else
      let r := newlinesForward rest
      (r.1 + 1, r.2)

/-- Modelled from the spec: `unicode::strip_newline` (not under `src/`):
remove one trailing line terminator (a trailing LF, then a trailing CR). -/
def stripNewline (l : List Nat) : List Nat :=
  let l1 := if l.getLast? = some 10 then l.dropLast else l
  if l1.getLast? = some 13 then l1.dropLast else l1

/-- The line-accumulation loop of `parse_next_line` (source lines 135–157),
with fuel: pull chunks, cap the accumulated length at `MEBI`, advance the
offset past the line terminator, stop at a found terminator or end of
document.  Called with a nonempty first chunk. -/
def assembleAuxF (doc : List Nat) : Nat → Nat → List Nat → List Nat → Option (List Nat × Nat)
  | 0, _, _, _ => none
  | f + 1, offset, buf, chunk =>
    let r := newlinesForward chunk
    let offset' := offset + r.1
    let e := min (min r.1 (MEBI - buf.length)) chunk.length
    let buf' := buf ++ chunk.take e
    if r.2 then some (buf', offset')
    else
      let chunk' := readForward doc offset'
      if chunk' = [] then some (buf', offset')
      else assembleAuxF doc f offset' buf' chunk'

/-- The line assembler: the initial `read_forward` plus the accumulation
loop; `none` exactly when the document is exhausted at `offset`. -/
def assembleF (doc : List Nat) (offset : Nat) : Option (List Nat × Nat) :=
  let chunk := readForward doc offset
  if chunk = [] then none
  else assembleAuxF doc (doc.length + 1) offset [] chunk

/-- The stripped line that a call to `parse_next_line` at `offset` scans
(empty at end of document). -/
def assembledLine (doc : List Nat) (offset : Nat) : List Nat :=
  match assembleF doc offset with
  | none => []
  | some (buf, _) => stripNewline buf

/-- `Parser` state: byte offset cursor, logical line counter, carried
transition. -/
structure Parser where
  offset : Nat
  logicalPosY : Nat
  state : Transition
deriving DecidableEq, Repr

/-- `Parser::parse_next_line` (source lines 116–261): assemble one line,
return early on end of document, bump the line counter except on the very
first call, drop the line (resetting the carried state) if it exceeds the
cap, otherwise strip the terminator and run the matching engine. -/
def parseNextLine (doc : List Nat) (p : Parser) : List Token × Parser :=
  match assembleF doc p.offset with
  | none => ([], p)
  | some (buf, offset') =>
    let y := if p.offset = 0 then p.logicalPosY else p.logicalPosY + 1
    if MEBI < buf.length then ([], ⟨offset', y, defaultT⟩)
    else
      let line := stripNewline buf
      let r := scanLine line p.offset p.state
      (r.1, ⟨offset', y, r.2⟩)

/-- Repeatedly calling `parse_next_line` from a given parser state until
the document is exhausted, concatenating the per-line token sequences;
with fuel (one unit per call). -/
def parseAllF (doc : List Nat) : Nat → Parser → Option (List Token)
  | 0, _ => none
  | f + 1, p =>
    if readForward doc p.offset = [] then some []
    else
      let r := parseNextLine doc p
      (parseAllF doc f r.2).map (fun ts => r.1 ++ ts)

/-- The document's logical lines, each including its terminator, split
with the same `newlines_forward` scanner. -/
def docLines (l : List Nat) : List (List Nat) :=
  if h : l = [] then []
  else
    let off := (newlinesForward l).1
    l.take off :: docLines (l.drop off)
termination_by l.length
decreasing_by
  simp only [List.length_drop]
  have h1 : 1 ≤ (newlinesForward l).1 := by
    cases l with
    | nil => exact absurd rfl h
    | cons b rest =>
      simp only [newlinesForward]
      split
      · simp
      · split
        · split <;> simp
        · simp
  have h2 : 1 ≤ l.length := by
    cases l with
    | nil => exact absurd rfl h
    | cons b rest => simp
  omega

/-- A single continuous top-to-bottom pass over a list of logical lines:
scan each (capped and stripped) line with the matching engine, threading
the carried state and the document offset. -/
def passLines : List (List Nat) → Nat → Transition → List Token
  | [], _, _ => []
  | l :: ls, off, st =>
    let line := stripNewline (l.take MEBI)
    let r := scanLine line off st
    r.1 ++ passLines ls (off + l.length) r.2

/-- The whole-document reference scan: one continuous pass over all
logical lines from the initial state. -/
def continuousScan (doc : List Nat) : List Token :=
  passLines (docLines doc) 0 defaultT

/-- Carried states that actually occur across `parse_next_line` calls
started from the default state: the default state, or an open span whose
exit test is a nonempty `Prefix` literal (the only way the engine leaves a
span open). -/
def GoodCarry (st : Transition) : Prop :=
  st = defaultT ∨ ∃ p, st.exit = Test.Pfx p ∧ p ≠ []

/-- Well-formedness of an emitted token sequence relative to a line that
starts at document offset `lo` and has `len` bytes: consecutive ranges are
non-overlapping with strictly increasing starts, and every range lies
within the line's byte bounds. -/
def TokensOkay (lo len : Nat) (ts : List Token) : Prop :=
  ts.Pairwise (fun t u => t.hi ≤ u.lo ∧ t.lo < u.lo) ∧
  ∀ u ∈ ts, lo ≤ u.lo ∧ u.lo ≤ u.hi ∧ u.hi ≤ lo + len

/-! ### Generic list helpers -/

theorem length_takeWhile_le' (p : α → Bool) (l : List α) :
    (l.takeWhile p).length ≤ l.length := by
  induction l with
  | nil => simp
  | cons a l ih =>
    rw [List.takeWhile_cons]
    split <;> simp <;> omega

theorem dropWhile_eq_drop' (p : α → Bool) (l : List α) :
    l.dropWhile p = l.drop (l.takeWhile p).length := by
  induction l with
  | nil => simp
  | cons a l ih =>
    rw [List.takeWhile_cons, List.dropWhile_cons]
    split <;> simp [ih]

theorem dropWhile_head_false {p : α → Bool} {l : List α} {b : α} {r : List α}
    (h : l.dropWhile p = b :: r) : p b = false := by
  have := List.head?_dropWhile_not p l
  rw [h] at this
  simpa using this

theorem isPrefixOf_length_le {l₁ : List Nat} :
    ∀ {l₂ : List Nat}, l₁.isPrefixOf l₂ = true → l₁.length ≤ l₂.length := by
  induction l₁ with
  | nil => intro l₂ _; simp
  | cons a as ih =>
    intro l₂ h
    cases l₂ with
    | nil => simp [List.isPrefixOf] at h
    | cons b bs =>
      rw [List.isPrefixOf, Bool.and_eq_true] at h
      simp only [List.length_cons]
      have := ih h.2
      omega

/-! ### Skip-function lemmas -/

theorem skipWs_ge (line : List Nat) (i : Nat) : i ≤ skipWs line i :=
  Nat.le_add_right _ _

theorem skipNonWs_ge (line : List Nat) (i : Nat) : i ≤ skipNonWs line i :=
  Nat.le_add_right _ _

theorem skipAlnumHi_ge (line : List Nat) (i : Nat) : i ≤ skipAlnumHi line i :=
  Nat.le_add_right _ _

theorem skipDigits_ge (line : List Nat) (i : Nat) : i ≤ skipDigits line i :=
  Nat.le_add_right _ _

theorem skipWs_le_length (line : List Nat) {i : Nat} (h : i ≤ line.length) :
    skipWs line i ≤ line.length := by
  have h1 := length_takeWhile_le' isWs (line.drop i)
  simp only [List.length_drop] at h1
  unfold skipWs; omega

theorem skipNonWs_le_length (line : List Nat) {i : Nat} (h : i ≤ line.length) :
    skipNonWs line i ≤ line.length := by
  have h1 := length_takeWhile_le' (fun b => !isWs b) (line.drop i)
  simp only [List.length_drop] at h1
  unfold skipNonWs; omega

theorem skipAlnumHi_le_length (line : List Nat) {i : Nat} (h : i ≤ line.length) :
    skipAlnumHi line i ≤ line.length := by
  have h1 := length_takeWhile_le' (fun b => isAlnum b || 128 ≤ b) (line.drop i)
  simp only [List.length_drop] at h1
  unfold skipAlnumHi; omega

theorem skipDigits_le_length (line : List Nat) {i : Nat} (h : i ≤ line.length) :
    skipDigits line i ≤ line.length := by
  have h1 := length_takeWhile_le' isDigit (line.drop i)
  simp only [List.length_drop] at h1
  unfold skipDigits; omega

theorem skipWs_at_len (line : List Nat) {i : Nat} (h : line.length ≤ i) :
    skipWs line i = i := by
  unfold skipWs
  rw [List.drop_eq_nil_iff.mpr h]
  simp

theorem skipNonWs_at_len (line : List Nat) {i : Nat} (h : line.length ≤ i) :
    skipNonWs line i = i := by
  unfold skipNonWs
  rw [List.drop_eq_nil_iff.mpr h]
  simp

theorem skipAlnumHi_at_len (line : List Nat) {i : Nat} (h : line.length ≤ i) :
    skipAlnumHi line i = i := by
  unfold skipAlnumHi
  rw [List.drop_eq_nil_iff.mpr h]
  simp

theorem skipDigits_at_len (line : List Nat) {i : Nat} (h : line.length ≤ i) :
    skipDigits line i = i := by
  unfold skipDigits
  rw [List.drop_eq_nil_iff.mpr h]
  simp

theorem drop_skipWs (line : List Nat) (i : Nat) :
    line.drop (skipWs line i) = (line.drop i).dropWhile isWs := by
  rw [dropWhile_eq_drop', skipWs, ← List.drop_drop]

/-- After skipping whitespace to a position still inside the line, the byte
there is not whitespace. -/
theorem skipWs_head (line : List Nat) {i : Nat} (h : skipWs line i < line.length) :
    ∃ b r, line.drop (skipWs line i) = b :: r ∧ isWs b = false := by
  have hd := drop_skipWs line i
  match hm : line.drop (skipWs line i) with
  | [] =>
    have := List.drop_eq_nil_iff.mp hm
    omega
  | b :: r =>
    refine ⟨b, r, rfl, ?_⟩
    rw [hm] at hd
    exact dropWhile_head_false hd.symm

/-- Skipping the non-whitespace run starting at a non-whitespace byte makes
strict progress. -/
theorem skipNonWs_gt (line : List Nat) {j : Nat} {b : Nat} {r : List Nat}
    (hd : line.drop j = b :: r) (hb : isWs b = false) : j < skipNonWs line j := by
  unfold skipNonWs
  rw [hd, List.takeWhile_cons_of_pos (by simp [hb])]
  simp

/-! ### Enter matching -/

/-- What a successful enter match means: the transition is in the table and
was selected by its `Always` or `Pfx` enter test (the only ones evaluated). -/
theorem matchEnter_cases {line : List Nat} {i : Nat} :
    ∀ {ts : List Transition} {t : Transition} {k : Nat},
    matchEnter line i ts = some (t, k) →
    t ∈ ts ∧ ((t.enter = Test.Always ∧ k = i) ∨
      ∃ p, t.enter = Test.Pfx p ∧ p.isPrefixOf (line.drop i) = true ∧ k = i + p.length) := by
  intro ts
  induction ts with
  | nil => intro t k h; simp [matchEnter] at h
  | cons u ts ih =>
    intro t k h
    rw [matchEnter] at h
    split at h
    · next heq =>
      obtain ⟨rfl, rfl⟩ : u = t ∧ i = k := by
        constructor <;> [exact congrArg Prod.fst (Option.some.inj h);
          exact congrArg Prod.snd (Option.some.inj h)]
      exact ⟨List.mem_cons_self _ _, Or.inl ⟨heq, rfl⟩⟩
    · next p heq =>
      split at h
      · next hp =>
        obtain ⟨rfl, rfl⟩ : u = t ∧ i + p.length = k := by
          constructor <;> [exact congrArg Prod.fst (Option.some.inj h);
            exact congrArg Prod.snd (Option.some.inj h)]
        exact ⟨List.mem_cons_self _ _, Or.inr ⟨p, heq, hp, rfl⟩⟩
      · next hp =>
        obtain ⟨hm, hc⟩ := ih h
        exact ⟨List.mem_cons_of_mem _ hm, hc⟩
    · next =>
      obtain ⟨hm, hc⟩ := ih h
      exact ⟨List.mem_cons_of_mem _ hm, hc⟩

/-- A transition whose enter test always makes strict progress when it
matches: not `Always`, and any `Pfx` literal nonempty. -/
def enterAdvOkB (t : Transition) : Bool :=
  match t.enter with
  | Test.Always => false
  | Test.Pfx p => !p.isEmpty
  | _ => true

theorem POWERSHELL0_enterAdv : POWERSHELL0.all enterAdvOkB = true := by decide

/-- In the sample grammar, a successful enter match strictly advances the
scan offset and stays within the line. -/
theorem matchEnter_table {line : List Nat} {i k : Nat} {t : Transition}
    (h : matchEnter line i POWERSHELL0 = some (t, k)) :
    i + 1 ≤ k ∧ k ≤ line.length := by
  obtain ⟨hmem, hc⟩ := matchEnter_cases h
  have hadv : enterAdvOkB t = true := List.all_eq_true.mp POWERSHELL0_enterAdv t hmem
  rcases hc with ⟨he, _⟩ | ⟨p, he, hpre, rfl⟩
  · rw [enterAdvOkB, he] at hadv; simp at hadv
  · rw [enterAdvOkB, he] at hadv
    have hpne : p ≠ [] := by simpa using hadv
    have hlen : p.length ≤ (line.drop i).length := isPrefixOf_length_le hpre
    simp only [List.length_drop] at hlen
    have hp1 : 1 ≤ p.length := by
      cases p with
      | nil => exact absurd rfl hpne
      | cons a l => simp
    omega

/-! ### Exit scanning -/

theorem exitPfxF_ge {p line : List Nat} :
    ∀ {f i : Nat} {b : Bool} {e : Nat}, exitPfxF p line f i = some (b, e) → i ≤ e := by
  intro f
  induction f with
  | zero => intro i b e h; simp [exitPfxF] at h
  | succ f ih =>
    intro i b e h
    rw [exitPfxF] at h
    by_cases hp : p.isPrefixOf (line.drop (skipWs line i)) = true
    · rw [if_pos hp] at h
      obtain rfl : skipWs line i + p.length = e := congrArg Prod.snd (Option.some.inj h)
      have := skipWs_ge line i
      omega
    · rw [if_neg hp] at h
      by_cases hk : skipNonWs line (skipWs line i) < line.length
      · rw [if_pos hk] at h
        have h1 := ih h
        have h2 := skipWs_ge line i
        have h3 := skipNonWs_ge line (skipWs line i)
        omega
      · rw [if_neg hk] at h
        obtain rfl : skipNonWs line (skipWs line i) = e := congrArg Prod.snd (Option.some.inj h)
        have h2 := skipWs_ge line i
        have h3 := skipNonWs_ge line (skipWs line i)
        omega

theorem exitPfxF_le {p line : List Nat} :
    ∀ {f i : Nat} {b : Bool} {e : Nat}, i ≤ line.length →
    exitPfxF p line f i = some (b, e) → e ≤ line.length := by
  intro f
  induction f with
  | zero => intro i b e _ h; simp [exitPfxF] at h
  | succ f ih =>
    intro i b e hi h
    rw [exitPfxF] at h
    have hj : skipWs line i ≤ line.length := skipWs_le_length line hi
    by_cases hp : p.isPrefixOf (line.drop (skipWs line i)) = true
    · rw [if_pos hp] at h
      obtain rfl : skipWs line i + p.length = e := congrArg Prod.snd (Option.some.inj h)
      have hlen : p.length ≤ (line.drop (skipWs line i)).length := isPrefixOf_length_le hp
      simp only [List.length_drop] at hlen
      omega
    · rw [if_neg hp] at h
      have hk : skipNonWs line (skipWs line i) ≤ line.length := skipNonWs_le_length line hj
      by_cases hklt : skipNonWs line (skipWs line i) < line.length
      · rw [if_pos hklt] at h
        exact ih (by omega) h
      · rw [if_neg hklt] at h
        obtain rfl : skipNonWs line (skipWs line i) = e := congrArg Prod.snd (Option.some.inj h)
        omega

/-- When the closing literal is not found, the exit scan ran to the end of
the line. -/
theorem exitPfxF_false_ge {p line : List Nat} :
    ∀ {f i e : Nat}, exitPfxF p line f i = some (false, e) → line.length ≤ e := by
  intro f
  induction f with
  | zero => intro i e h; simp [exitPfxF] at h
  | succ f ih =>
    intro i e h
    rw [exitPfxF] at h
    by_cases hp : p.isPrefixOf (line.drop (skipWs line i)) = true
    · rw [if_pos hp] at h
      exact absurd (congrArg Prod.fst (Option.some.inj h)) (by simp)
    · rw [if_neg hp] at h
      by_cases hk : skipNonWs line (skipWs line i) < line.length
      · rw [if_pos hk] at h
        exact ih h
      · rw [if_neg hk] at h
        obtain rfl : skipNonWs line (skipWs line i) = e := congrArg Prod.snd (Option.some.inj h)
        omega

theorem exitPfxF_isSome {p line : List Nat} :
    ∀ {f i : Nat}, line.length - i < f → (exitPfxF p line f i).isSome = true := by
  intro f
  induction f with
  | zero => intro i h; omega
  | succ f ih =>
    intro i h
    rw [exitPfxF]
    by_cases hp : p.isPrefixOf (line.drop (skipWs line i)) = true
    · rw [if_pos hp]; rfl
    · rw [if_neg hp]
      by_cases hk : skipNonWs line (skipWs line i) < line.length
      · rw [if_pos hk]
        have hj : skipWs line i < line.length := by
          by_contra hc
          have := skipNonWs_at_len line (i := skipWs line i) (by omega)
          omega
        obtain ⟨b, r, hd, hb⟩ := skipWs_head line hj
        have hgt : skipWs line i < skipNonWs line (skipWs line i) := skipNonWs_gt line hd hb
        have hge := skipWs_ge line i
        exact ih (by omega)
      · rw [if_neg hk]; rfl

/-! ### The exit phase -/

theorem runExit_isSome {line : List Nat} (st : Transition) (i : Nat) :
    (runExit line st i).isSome = true := by
  rw [runExit]
  match st.exit with
  | Test.Always => rfl
  | Test.LineEnd => rfl
  | Test.Pfx p =>
    have h := @exitPfxF_isSome p line (line.length + 1) i (by omega)
    simp only [Option.isSome_map']
    exact h
  | Test.Word w => rfl
  | Test.NonAlpha => rfl
  | Test.NonDigit => rfl

theorem runExit_ge {line : List Nat} {st : Transition} {i : Nat} {st2 : Transition} {e : Nat}
    (hi : i ≤ line.length) (h : runExit line st i = some (st2, e)) : i ≤ e := by
  rw [runExit] at h
  match hx : st.exit with
  | Test.Always =>
    rw [hx] at h
    obtain rfl : i = e := congrArg Prod.snd (Option.some.inj h)
    omega
  | Test.LineEnd =>
    rw [hx] at h
    obtain rfl : line.length = e := congrArg Prod.snd (Option.some.inj h)
    omega
  | Test.Pfx p =>
    rw [hx] at h
    obtain ⟨⟨b, e'⟩, hfe, hmap⟩ := Option.map_eq_some'.mp h
    obtain rfl : e' = e := congrArg Prod.snd hmap
    exact exitPfxF_ge hfe
  | Test.Word w =>
    rw [hx] at h
    obtain rfl : i = e := congrArg Prod.snd (Option.some.inj h)
    omega
  | Test.NonAlpha =>
    rw [hx] at h
    obtain rfl : skipAlnumHi line i = e := congrArg Prod.snd (Option.some.inj h)
    exact skipAlnumHi_ge line i
  | Test.NonDigit =>
    rw [hx] at h
    obtain rfl : skipDigits line i = e := congrArg Prod.snd (Option.some.inj h)
    exact skipDigits_ge line i

theorem runExit_le {line : List Nat} {st : Transition} {i : Nat} {st2 : Transition} {e : Nat}
    (hi : i ≤ line.length) (h : runExit line st i = some (st2, e)) : e ≤ line.length := by
  rw [runExit] at h
  match hx : st.exit with
  | Test.Always =>
    rw [hx] at h
    obtain rfl : i = e := congrArg Prod.snd (Option.some.inj h)
    omega
  | Test.LineEnd =>
    rw [hx] at h
    obtain rfl : line.length = e := congrArg Prod.snd (Option.some.inj h)
    omega
  | Test.Pfx p =>
    rw [hx] at h
    obtain ⟨⟨b, e'⟩, hfe, hmap⟩ := Option.map_eq_some'.mp h
    obtain rfl : e' = e := congrArg Prod.snd hmap
    exact exitPfxF_le hi hfe
  | Test.Word w =>
    rw [hx] at h
    obtain rfl : i = e := congrArg Prod.snd (Option.some.inj h)
    omega
  | Test.NonAlpha =>
    rw [hx] at h
    obtain rfl : skipAlnumHi line i = e := congrArg Prod.snd (Option.some.inj h)
    exact skipAlnumHi_le_length line hi
  | Test.NonDigit =>
    rw [hx] at h
    obtain rfl : skipDigits line i = e := congrArg Prod.snd (Option.some.inj h)
    exact skipDigits_le_length line hi

/-- If the exit phase stops strictly before end of line, the span closed
and the carried state was reset to the default. -/
theorem runExit_lt_closed {line : List Nat} {st : Transition} {i : Nat} {st2 : Transition} {e : Nat}
    (h : runExit line st i = some (st2, e)) (he : e < line.length) : st2 = defaultT := by
  rw [runExit] at h
  match hx : st.exit with
  | Test.Always =>
    rw [hx] at h
    exact (congrArg Prod.fst (Option.some.inj h)).symm
  | Test.LineEnd =>
    rw [hx] at h
    obtain rfl : line.length = e := congrArg Prod.snd (Option.some.inj h)
    omega
  | Test.Pfx p =>
    rw [hx] at h
    obtain ⟨⟨b, e'⟩, hfe, hmap⟩ := Option.map_eq_some'.mp h
    obtain rfl : e' = e := congrArg Prod.snd hmap
    have hst2 : (if b = true then defaultT else st) = st2 := congrArg Prod.fst hmap
    cases b with
    | true => simpa using hst2.symm
    | false =>
      have := exitPfxF_false_ge hfe
      omega
  | Test.Word w =>
    rw [hx] at h
    exact (congrArg Prod.fst (Option.some.inj h)).symm
  | Test.NonAlpha =>
    rw [hx] at h
    exact (congrArg Prod.fst (Option.some.inj h)).symm
  | Test.NonDigit =>
    rw [hx] at h
    exact (congrArg Prod.fst (Option.some.inj h)).symm

/-- The exit phase started at end of line stops at end of line or beyond a
zero-width closer: the new offset is never below the line length. -/
theorem runExit_at_len {line : List Nat} {st : Transition} {st2 : Transition} {e : Nat}
    (h : runExit line st line.length = some (st2, e)) : line.length ≤ e := by
  rw [runExit] at h
  match hx : st.exit with
  | Test.Always =>
    rw [hx] at h
    obtain rfl : line.length = e := congrArg Prod.snd (Option.some.inj h)
    omega
  | Test.LineEnd =>
    rw [hx] at h
    obtain rfl : line.length = e := congrArg Prod.snd (Option.some.inj h)
    omega
  | Test.Pfx p =>
    rw [hx] at h
    obtain ⟨⟨b, e'⟩, hfe, hmap⟩ := Option.map_eq_some'.mp h
    obtain rfl : e' = e := congrArg Prod.snd hmap
    have := exitPfxF_ge hfe
    omega
  | Test.Word w =>
    rw [hx] at h
    obtain rfl : line.length = e := congrArg Prod.snd (Option.some.inj h)
    omega
  | Test.NonAlpha =>
    rw [hx] at h
    obtain rfl : skipAlnumHi line line.length = e := congrArg Prod.snd (Option.some.inj h)
    have := skipAlnumHi_at_len line (Nat.le_refl line.length)
    omega
  | Test.NonDigit =>
    rw [hx] at h
    obtain rfl : skipDigits line line.length = e := congrArg Prod.snd (Option.some.inj h)
    have := skipDigits_at_len line (Nat.le_refl line.length)
    omega

/-! ### The enter loop -/

theorem enterLoopF_isSome {line : List Nat} :
    ∀ {f i : Nat}, line.length - i < f → (enterLoopF line f i).isSome = true := by
  intro f
  induction f with
  | zero => intro i h; omega
  | succ f ih =>
    intro i h
    rw [enterLoopF]
    by_cases hj : skipWs line i < line.length
    · rw [if_pos hj]
      match hm : matchEnter line (skipWs line i) POWERSHELL0 with
      | some (t, k) => rfl
      | none =>
        by_cases hk : skipNonWs line (skipWs line i) < line.length
        · rw [if_pos hk]
          obtain ⟨b, r, hd, hb⟩ := skipWs_head line hj
          have hgt : skipWs line i < skipNonWs line (skipWs line i) := skipNonWs_gt line hd hb
          have hge := skipWs_ge line i
          exact ih (by omega)
        · rw [if_neg hk]; rfl
    · rw [if_neg hj]; rfl

theorem enterLoopF_irrel {line : List Nat} :
    ∀ {f g i : Nat}, line.length - i < f → line.length - i < g →
    enterLoopF line f i = enterLoopF line g i := by
  intro f
  induction f with
  | zero => intro g i h _; omega
  | succ f ih =>
    intro g i hf hg
    match g with
    | 0 => omega
    | g + 1 =>
      rw [enterLoopF, enterLoopF]
      by_cases hj : skipWs line i < line.length
      · simp only [if_pos hj]
        match hm : matchEnter line (skipWs line i) POWERSHELL0 with
        | some (t, k) => rfl
        | none =>
          by_cases hk : skipNonWs line (skipWs line i) < line.length
          · simp only [if_pos hk]
            obtain ⟨b, r, hd, hb⟩ := skipWs_head line hj
            have hgt : skipWs line i < skipNonWs line (skipWs line i) := skipNonWs_gt line hd hb
            have hge := skipWs_ge line i
            exact ih (by omega) (by omega)
          · simp only [if_neg hk]
      · simp only [if_neg hj]

theorem enterLoopF_matched {line : List Nat} :
    ∀ {f i : Nat} {t : Transition} {b k : Nat},
    enterLoopF line f i = some (EnterRes.matched t b k) →
    i ≤ b ∧ b < line.length ∧ matchEnter line b POWERSHELL0 = some (t, k) := by
  intro f
  induction f with
  | zero => intro i t b k h; simp [enterLoopF] at h
  | succ f ih =>
    intro i t b k h
    rw [enterLoopF] at h
    by_cases hj : skipWs line i < line.length
    · rw [if_pos hj] at h
      match hm : matchEnter line (skipWs line i) POWERSHELL0 with
      | some (t', k') =>
        rw [hm] at h
        have hinj := Option.some.inj h
        cases hinj
        exact ⟨skipWs_ge line i, hj, hm⟩
      | none =>
        rw [hm] at h
        by_cases hk : skipNonWs line (skipWs line i) < line.length
        · rw [if_pos hk] at h
          obtain ⟨h1, h2, h3⟩ := ih h
          have hge := skipWs_ge line i
          have := skipNonWs_ge line (skipWs line i)
          exact ⟨by omega, h2, h3⟩
        · rw [if_neg hk] at h
          simp at h
    · rw [if_neg hj] at h
      simp at h

theorem enterLoopF_trailing {line : List Nat} :
    ∀ {f i : Nat} {b k : Nat},
    enterLoopF line f i = some (EnterRes.trailing b k) →
    i ≤ b ∧ b < line.length ∧ b + 1 ≤ k ∧ k = skipNonWs line b ∧ line.length ≤ k := by
  intro f
  induction f with
  | zero => intro i b k h; simp [enterLoopF] at h
  | succ f ih =>
    intro i b k h
    rw [enterLoopF] at h
    by_cases hj : skipWs line i < line.length
    · rw [if_pos hj] at h
      match hm : matchEnter line (skipWs line i) POWERSHELL0 with
      | some (t', k') =>
        rw [hm] at h
        simp at h
      | none =>
        rw [hm] at h
        by_cases hk : skipNonWs line (skipWs line i) < line.length
        · rw [if_pos hk] at h
          obtain ⟨h1, h2, h3, h4, h5⟩ := ih h
          have hge := skipWs_ge line i
          have := skipNonWs_ge line (skipWs line i)
          exact ⟨by omega, h2, h3, h4, h5⟩
        · rw [if_neg hk] at h
          have hinj := Option.some.inj h
          cases hinj
          obtain ⟨c, r, hd, hb⟩ := skipWs_head line hj
          exact ⟨skipWs_ge line i, hj, skipNonWs_gt line hd hb, rfl, by omega⟩
    · rw [if_neg hj] at h
      simp at h

/-! ### The outer matching loop: fuel sufficiency -/

/-- Measure contribution of the carried state: an open span costs one extra
iteration before the loop is guaranteed to advance. -/
def ebit (st : Transition) : Nat :=
  if st.enter = Test.Always then 0 else 1

theorem ebit_le (st : Transition) : ebit st ≤ 1 := by
  rw [ebit]
  split <;> omega

theorem scanAuxF_isSome {line : List Nat} {lo : Nat} :
    ∀ {f i : Nat} {st : Transition}, i ≤ line.length →
    2 * (line.length - i) + ebit st + 1 ≤ f →
    (scanAuxF line lo f i st).isSome = true := by
  intro f
  induction f with
  | zero => intro i st _ h; omega
  | succ f ih =>
    intro i st hi h
    rw [scanAuxF]
    simp only []
    by_cases hA : st.enter = Test.Always
    · rw [if_pos hA]
      obtain ⟨res, hm⟩ := Option.isSome_iff_exists.mp
        (@enterLoopF_isSome line (line.length + 1) i (by omega))
      cases res with
      | lineDone => simp only [hm, Option.isSome_some]
      | matched t b k =>
        obtain ⟨hib, hbl, hme⟩ := enterLoopF_matched hm
        obtain ⟨hbk, hkl⟩ := matchEnter_table hme
        obtain ⟨⟨st2, e⟩, hrx⟩ := Option.isSome_iff_exists.mp (@runExit_isSome line t k)
        have hke : k ≤ e := runExit_ge (by omega) hrx
        have hel2 : e ≤ line.length := runExit_le (by omega) hrx
        simp only [hm, hrx]
        by_cases hend : line.length ≤ e
        · rw [if_pos hend]; rfl
        · rw [if_neg hend]
          have hcl : st2 = defaultT := runExit_lt_closed hrx (by omega)
          have hrec : (scanAuxF line lo f e st2).isSome = true := by
            apply ih (by omega)
            have heb : ebit st2 = 0 := by rw [hcl]; rfl
            omega
          obtain ⟨⟨ts, stf⟩, hr⟩ := Option.isSome_iff_exists.mp hrec
          simp only [hr, Option.isSome_some]
      | trailing b k =>
        obtain ⟨hib, hbl, hbk, hks, hkl⟩ := enterLoopF_trailing hm
        have hkle : k ≤ line.length := by
          rw [hks]; exact skipNonWs_le_length line (by omega)
        have hkeq : k = line.length := by omega
        obtain ⟨⟨st2, e⟩, hrx⟩ := Option.isSome_iff_exists.mp (@runExit_isSome line st k)
        have hge : line.length ≤ e := by
          subst hkeq
          exact runExit_at_len hrx
        simp only [hm, hrx]
        rw [if_pos hge]; rfl
    · rw [if_neg hA]
      have hebst : ebit st = 1 := by rw [ebit, if_neg hA]
      obtain ⟨⟨st2, e⟩, hrx⟩ := Option.isSome_iff_exists.mp (@runExit_isSome line st i)
      have hie : i ≤ e := runExit_ge hi hrx
      have hel2 : e ≤ line.length := runExit_le hi hrx
      simp only [hrx]
      by_cases hend : line.length ≤ e
      · rw [if_pos hend]; rfl
      · rw [if_neg hend]
        have hcl : st2 = defaultT := runExit_lt_closed hrx (by omega)
        have hrec : (scanAuxF line lo f e st2).isSome = true := by
          apply ih (by omega)
          have heb : ebit st2 = 0 := by rw [hcl]; rfl
          omega
        obtain ⟨⟨ts, stf⟩, hr⟩ := Option.isSome_iff_exists.mp hrec
        simp only [hr, Option.isSome_some]

/-- When the closing literal is found, the scan consumed at least the
closer itself. -/
theorem exitPfxF_true_ge {p line : List Nat} :
    ∀ {f i e : Nat}, exitPfxF p line f i = some (true, e) → i + p.length ≤ e := by
  intro f
  induction f with
  | zero => intro i e h; simp [exitPfxF] at h
  | succ f ih =>
    intro i e h
    rw [exitPfxF] at h
    by_cases hp : p.isPrefixOf (line.drop (skipWs line i)) = true
    · rw [if_pos hp] at h
      obtain rfl : skipWs line i + p.length = e := congrArg Prod.snd (Option.some.inj h)
      have := skipWs_ge line i
      omega
    · rw [if_neg hp] at h
      by_cases hk : skipNonWs line (skipWs line i) < line.length
      · rw [if_pos hk] at h
        have h1 := ih h
        have h2 := skipWs_ge line i
        have h3 := skipNonWs_ge line (skipWs line i)
        omega
      · rw [if_neg hk] at h
        exact absurd (congrArg Prod.fst (Option.some.inj h)) (by simp)

/-- For an open span with a nonempty closing literal, an exit phase that
stops strictly inside the line made strict progress (it consumed at least
the closer). -/
theorem runExit_open_progress {line : List Nat} {st : Transition} {i : Nat}
    {st2 : Transition} {e : Nat} {p : List Nat}
    (hxp : st.exit = Test.Pfx p) (hpne : p ≠ [])
    (h : runExit line st i = some (st2, e)) (he : e < line.length) : i < e := by
  rw [runExit, hxp] at h
  obtain ⟨⟨b, e'⟩, hfe, hmap⟩ := Option.map_eq_some'.mp h
  obtain rfl : e' = e := congrArg Prod.snd hmap
  cases b with
  | false =>
    have := exitPfxF_false_ge hfe
    omega
  | true =>
    have := exitPfxF_true_ge hfe
    have hp1 : 1 ≤ p.length := by
      cases p with
      | nil => exact absurd rfl hpne
      | cons a l => simp
    omega

/-! ### The outer matching loop: token well-formedness (for C7) -/

theorem scanAuxF_tokensOk {line : List Nat} {lo : Nat} :
    ∀ {f i : Nat} {st : Transition} {ts : List Token} {stf : Transition},
    i ≤ line.length →
    (st.enter = Test.Always ∨ ∃ p, st.exit = Test.Pfx p ∧ p ≠ []) →
    scanAuxF line lo f i st = some (ts, stf) →
    (∀ u ∈ ts, lo + i ≤ u.lo ∧ u.lo ≤ u.hi ∧ u.hi ≤ lo + line.length) ∧
    ts.Pairwise (fun t u => t.hi ≤ u.lo ∧ t.lo < u.lo) := by
  intro f
  induction f with
  | zero => intro i st ts stf _ _ h; simp [scanAuxF] at h
  | succ f ih =>
    intro i st ts stf hi hok hscan
    rw [scanAuxF] at hscan
    simp only [] at hscan
    by_cases hA : st.enter = Test.Always
    · rw [if_pos hA] at hscan
      obtain ⟨res, hm⟩ := Option.isSome_iff_exists.mp
        (@enterLoopF_isSome line (line.length + 1) i (by omega))
      simp only [hm] at hscan
      cases res with
      | lineDone =>
        obtain ⟨rfl, rfl⟩ : ([] : List Token) = ts ∧ st = stf := by
          constructor <;> [exact congrArg Prod.fst (Option.some.inj hscan);
            exact congrArg Prod.snd (Option.some.inj hscan)]
        exact ⟨by simp, List.Pairwise.nil⟩
      | matched t b k =>
        obtain ⟨hib, hbl, hme⟩ := enterLoopF_matched hm
        obtain ⟨hbk, hkl⟩ := matchEnter_table hme
        obtain ⟨⟨st2, e⟩, hrx⟩ := Option.isSome_iff_exists.mp (@runExit_isSome line t k)
        have hke : k ≤ e := runExit_ge (by omega) hrx
        have hel2 : e ≤ line.length := runExit_le (by omega) hrx
        simp only [hrx] at hscan
        by_cases hend : line.length ≤ e
        · rw [if_pos hend] at hscan
          obtain ⟨rfl, rfl⟩ :
              ([(⟨lo + b, lo + e, st2.kind⟩ : Token)] = ts) ∧ st2 = stf := by
            constructor <;> [exact congrArg Prod.fst (Option.some.inj hscan);
              exact congrArg Prod.snd (Option.some.inj hscan)]
          refine ⟨?_, List.pairwise_singleton _ _⟩
          intro u hu
          rw [List.mem_singleton] at hu
          subst hu
          simp only []
          omega
        · rw [if_neg hend] at hscan
          have hcl : st2 = defaultT := runExit_lt_closed hrx (by omega)
          match hrr : scanAuxF line lo f e st2 with
          | none => rw [hrr] at hscan; simp at hscan
          | some (ts', stf') =>
            rw [hrr] at hscan
            obtain ⟨rfl, rfl⟩ :
                ((⟨lo + b, lo + e, st2.kind⟩ : Token) :: ts' = ts) ∧ stf' = stf := by
              constructor <;> [exact congrArg Prod.fst (Option.some.inj hscan);
                exact congrArg Prod.snd (Option.some.inj hscan)]
            obtain ⟨hbd, hpw⟩ := ih (by omega) (Or.inl (by rw [hcl]; rfl)) hrr
            constructor
            · intro u hu
              rcases List.mem_cons.mp hu with rfl | hu'
              · simp only []
                omega
              · have := hbd u hu'
                omega
            · refine List.Pairwise.cons ?_ hpw
              intro u hu
              have := hbd u hu
              simp only []
              constructor <;> omega
      | trailing b k =>
        obtain ⟨hib, hbl, hbk, hks, hkl⟩ := enterLoopF_trailing hm
        have hkle : k ≤ line.length := by
          rw [hks]; exact skipNonWs_le_length line (by omega)
        have hkeq : k = line.length := by omega
        obtain ⟨⟨st2, e⟩, hrx⟩ := Option.isSome_iff_exists.mp (@runExit_isSome line st k)
        have hke : k ≤ e := runExit_ge (by omega) hrx
        have hel2 : e ≤ line.length := runExit_le (by omega) hrx
        have hge : line.length ≤ e := by
          subst hkeq
          exact runExit_at_len hrx
        simp only [hrx] at hscan
        rw [if_pos hge] at hscan
        obtain ⟨rfl, rfl⟩ :
            ([(⟨lo + b, lo + e, st2.kind⟩ : Token)] = ts) ∧ st2 = stf := by
          constructor <;> [exact congrArg Prod.fst (Option.some.inj hscan);
            exact congrArg Prod.snd (Option.some.inj hscan)]
        refine ⟨?_, List.pairwise_singleton _ _⟩
        intro u hu
        rw [List.mem_singleton] at hu
        subst hu
        simp only []
        omega
    · rw [if_neg hA] at hscan
      obtain ⟨p, hxp, hpne⟩ : ∃ p, st.exit = Test.Pfx p ∧ p ≠ [] := by
        rcases hok with hd | hex
        · rw [hd] at hA; exact absurd rfl hA
        · exact hex
      obtain ⟨⟨st2, e⟩, hrx⟩ := Option.isSome_iff_exists.mp (@runExit_isSome line st i)
      have hie : i ≤ e := runExit_ge hi hrx
      have hel2 : e ≤ line.length := runExit_le hi hrx
      simp only [hrx] at hscan
      by_cases hend : line.length ≤ e
      · rw [if_pos hend] at hscan
        obtain ⟨rfl, rfl⟩ :
            ([(⟨lo + i, lo + e, st2.kind⟩ : Token)] = ts) ∧ st2 = stf := by
          constructor <;> [exact congrArg Prod.fst (Option.some.inj hscan);
            exact congrArg Prod.snd (Option.some.inj hscan)]
        refine ⟨?_, List.pairwise_singleton _ _⟩
        intro u hu
        rw [List.mem_singleton] at hu
        subst hu
        simp only []
        omega
      · rw [if_neg hend] at hscan
        have hcl : st2 = defaultT := runExit_lt_closed hrx (by omega)
        have hprog : i < e := runExit_open_progress hxp hpne hrx (by omega)
        match hrr : scanAuxF line lo f e st2 with
        | none => rw [hrr] at hscan; simp at hscan
        | some (ts', stf') =>
          rw [hrr] at hscan
          obtain ⟨rfl, rfl⟩ :
              ((⟨lo + i, lo + e, st2.kind⟩ : Token) :: ts' = ts) ∧ stf' = stf := by
            constructor <;> [exact congrArg Prod.fst (Option.some.inj hscan);
              exact congrArg Prod.snd (Option.some.inj hscan)]
          obtain ⟨hbd, hpw⟩ := ih (by omega) (Or.inl (by rw [hcl]; rfl)) hrr
          constructor
          · intro u hu
            rcases List.mem_cons.mp hu with rfl | hu'
            · simp only []
              omega
            · have := hbd u hu'
              omega
          · refine List.Pairwise.cons ?_ hpw
            intro u hu
            have := hbd u hu
            simp only []
            constructor <;> omega

/-! ### The outer matching loop: token kinds (for C10) -/

theorem scanAuxF_kinds {line : List Nat} {lo : Nat} :
    ∀ {f i : Nat} {st : Transition} {ts : List Token} {stf : Transition},
    scanAuxF line lo f i st = some (ts, stf) →
    (∀ u ∈ ts.dropLast, u.kind = TokenKind.Other) ∧
    (∀ u, ts.getLast? = some u → u.kind = stf.kind) ∧
    (ts = [] → stf = st) := by
  intro f
  induction f with
  | zero => intro i st ts stf h; simp [scanAuxF] at h
  | succ f ih =>
    intro i st ts stf hscan
    rw [scanAuxF] at hscan
    simp only [] at hscan
    have hstep : ∀ (t : Transition) (b k : Nat),
        (match runExit line t k with
         | none => none
         | some (st2, e) =>
           if line.length ≤ e then some ([(⟨lo + b, lo + e, st2.kind⟩ : Token)], st2)
           else
             match scanAuxF line lo f e st2 with
             | none => none
             | some (ts, stf) => some ((⟨lo + b, lo + e, st2.kind⟩ : Token) :: ts, stf)) =
          some (ts, stf) →
        (∀ u ∈ ts.dropLast, u.kind = TokenKind.Other) ∧
        (∀ u, ts.getLast? = some u → u.kind = stf.kind) ∧ ts ≠ [] := by
      intro t b k hs
      match hrx : runExit line t k with
      | none => rw [hrx] at hs; simp at hs
      | some (st2, e) =>
        rw [hrx] at hs
        simp only [] at hs
        by_cases hend : line.length ≤ e
        · rw [if_pos hend] at hs
          obtain ⟨rfl, rfl⟩ :
              ([(⟨lo + b, lo + e, st2.kind⟩ : Token)] = ts) ∧ st2 = stf := by
            constructor <;> [exact congrArg Prod.fst (Option.some.inj hs);
              exact congrArg Prod.snd (Option.some.inj hs)]
          refine ⟨by simp, ?_, by simp⟩
          intro u hu
          rw [List.getLast?_singleton] at hu
          cases Option.some.inj hu
          rfl
        · rw [if_neg hend] at hs
          have hcl : st2 = defaultT := runExit_lt_closed hrx (by omega)
          match hrr : scanAuxF line lo f e st2 with
          | none => rw [hrr] at hs; simp at hs
          | some (ts', stf') =>
            rw [hrr] at hs
            obtain ⟨rfl, rfl⟩ :
                ((⟨lo + b, lo + e, st2.kind⟩ : Token) :: ts' = ts) ∧ stf' = stf := by
              constructor <;> [exact congrArg Prod.fst (Option.some.inj hs);
                exact congrArg Prod.snd (Option.some.inj hs)]
            obtain ⟨hdl, hlast, hnil⟩ := ih hrr
            match ts' with
            | [] =>
              refine ⟨by simp, ?_, by simp⟩
              intro u hu
              rw [List.getLast?_singleton] at hu
              cases Option.some.inj hu
              rw [hnil rfl, hcl]
            | t' :: l' =>
              refine ⟨?_, ?_, by simp⟩
              · intro u hu
                rw [List.dropLast_cons₂, List.mem_cons] at hu
                rcases hu with rfl | hu'
                · rw [hcl]; rfl
                · exact hdl u hu'
              · intro u hu
                rw [List.getLast?_cons_cons] at hu
                exact hlast u hu
    by_cases hA : st.enter = Test.Always
    · rw [if_pos hA] at hscan
      match hm : enterLoopF line (line.length + 1) i with
      | none => rw [hm] at hscan; simp at hscan
      | some EnterRes.lineDone =>
        rw [hm] at hscan
        simp only [] at hscan
        obtain ⟨rfl, rfl⟩ : ([] : List Token) = ts ∧ st = stf := by
          constructor <;> [exact congrArg Prod.fst (Option.some.inj hscan);
            exact congrArg Prod.snd (Option.some.inj hscan)]
        exact ⟨by simp, by simp, fun _ => rfl⟩
      | some (EnterRes.matched t b k) =>
        rw [hm] at hscan
        simp only [] at hscan
        obtain ⟨h1, h2, _⟩ := hstep t b k hscan
        exact ⟨h1, h2, fun hnil => absurd hnil (by assumption)⟩
      | some (EnterRes.trailing b k) =>
        rw [hm] at hscan
        simp only [] at hscan
        obtain ⟨h1, h2, _⟩ := hstep st b k hscan
        exact ⟨h1, h2, fun hnil => absurd hnil (by assumption)⟩
    · rw [if_neg hA] at hscan
      obtain ⟨h1, h2, _⟩ := hstep st i i hscan
      exact ⟨h1, h2, fun hnil => absurd hnil (by assumption)⟩

/-! ### Line assembly -/

theorem newlinesForward_pos {l : List Nat} (h : l ≠ []) : 1 ≤ (newlinesForward l).1 := by
  cases l with
  | nil => exact absurd rfl h
  | cons b rest =>
    rw [newlinesForward]
    split
    · simp
    · split
      · split <;> simp
      · simp

theorem newlinesForward_le (l : List Nat) : (newlinesForward l).1 ≤ l.length := by
  induction l with
  | nil => simp [newlinesForward]
  | cons b rest ih =>
    rw [newlinesForward]
    split
    · simp
    · split
      · split
        · simp only []
          cases rest with
          | nil => simp at *
          | cons c r => simp at *
        · simp
      · simp only [List.length_cons]
        omega

theorem newlinesForward_false {l : List Nat} (h : (newlinesForward l).2 = false) :
    (newlinesForward l).1 = l.length := by
  induction l with
  | nil => simp [newlinesForward]
  | cons b rest ih =>
    rw [newlinesForward] at h ⊢
    by_cases hb10 : b = 10
    · rw [if_pos hb10] at h
      simp at h
    · rw [if_neg hb10] at h ⊢
      by_cases hb13 : b = 13
      · rw [if_pos hb13] at h
        by_cases hh : rest.head? = some 10
        · rw [if_pos hh] at h; simp at h
        · rw [if_neg hh] at h; simp at h
      · rw [if_neg hb13] at h ⊢
        simp only [] at h ⊢
        rw [ih h, List.length_cons]

theorem take_min_length (l : List Nat) (n : Nat) : l.take (min n l.length) = l.take n := by
  rw [List.take_eq_take]
  omega

/-- With whole-remainder chunks, the assembly loop runs at most twice and
produces the capped first line plus the offset of the next line start. -/
theorem assemble_eq {doc : List Nat} {offset : Nat} (h : readForward doc offset ≠ []) :
    assembleF doc offset =
      some ((readForward doc offset).take (min (newlinesForward (readForward doc offset)).1 MEBI),
        offset + (newlinesForward (readForward doc offset)).1) := by
  rw [assembleF]
  simp only [if_neg h]
  rw [assembleAuxF]
  simp only []
  have hofflt : offset < doc.length := by
    by_contra hc
    exact h (List.drop_eq_nil_iff.mpr (by omega))
  by_cases hnl : (newlinesForward (readForward doc offset)).2 = true
  · rw [if_pos hnl]
    simp only [Option.some.injEq, Prod.mk.injEq]
    refine ⟨?_, trivial⟩
    rw [List.nil_append, List.take_eq_take]
    simp only [List.length_nil, Nat.sub_zero]
    omega
  · rw [if_neg hnl]
    have hoff : (newlinesForward (readForward doc offset)).1 = (readForward doc offset).length :=
      newlinesForward_false (by simpa using hnl)
    have hchlen : (readForward doc offset).length = doc.length - offset := by
      rw [readForward, List.length_drop]
    have hend : readForward doc (offset + (newlinesForward (readForward doc offset)).1) = [] := by
      rw [readForward, List.drop_eq_nil_iff, hoff, hchlen]
      omega
    rw [if_pos hend]
    simp only [Option.some.injEq, Prod.mk.injEq]
    refine ⟨?_, trivial⟩
    rw [List.nil_append, List.take_eq_take]
    simp only [List.length_nil, Nat.sub_zero]
    omega

/-- The assembled buffer never exceeds the cap: the oversized-line branch
of `parse_next_line` (`buf.length > MEBI`) is unreachable. -/
theorem assemble_len_le {doc : List Nat} {offset : Nat} {buf : List Nat} {offset' : Nat}
    (h : assembleF doc offset = some (buf, offset')) : buf.length ≤ MEBI := by
  by_cases hne : readForward doc offset = []
  · rw [assembleF, if_pos hne] at h
    simp at h
  · rw [assemble_eq hne] at h
    obtain rfl : _ = buf := congrArg Prod.fst (Option.some.inj h)
    simp only [List.length_take]
    omega

/-! ### Whole-document scan (for C6) -/

theorem docLines_nil : docLines [] = [] := by
  rw [docLines]
  simp

theorem docLines_cons {l : List Nat} (h : l ≠ []) :
    docLines l = l.take (newlinesForward l).1 :: docLines (l.drop (newlinesForward l).1) := by
  rw [docLines]
  simp only [dif_neg h]

/-- Iterating `parse_next_line` from offset `offset` produces exactly the
continuous scan of the remaining lines, threading the carried state. -/
theorem parseAllF_eq_passLines {doc : List Nat} :
    ∀ {f offset y : Nat} {st : Transition}, doc.length - offset < f →
    parseAllF doc f ⟨offset, y, st⟩ = some (passLines (docLines (doc.drop offset)) offset st) := by
  intro f
  induction f with
  | zero => intro offset y st h; omega
  | succ f ih =>
    intro offset y st h
    rw [parseAllF]
    by_cases hEOF : readForward doc offset = []
    · rw [if_pos hEOF]
      rw [readForward] at hEOF
      rw [hEOF, docLines_nil]
      rfl
    · rw [if_neg hEOF]
      simp only []
      have hofflt : offset < doc.length := by
        by_contra hc
        exact hEOF (by rw [readForward]; exact List.drop_eq_nil_iff.mpr (by omega))
      have hn1 : 1 ≤ (newlinesForward (readForward doc offset)).1 :=
        newlinesForward_pos hEOF
      have hn1le : (newlinesForward (readForward doc offset)).1 ≤ (readForward doc offset).length :=
        newlinesForward_le _
      have hpnl : parseNextLine doc ⟨offset, y, st⟩ =
          ((scanLine (stripNewline ((readForward doc offset).take
              (min (newlinesForward (readForward doc offset)).1 MEBI))) offset st).1,
            ⟨offset + (newlinesForward (readForward doc offset)).1,
              if offset = 0 then y else y + 1,
              (scanLine (stripNewline ((readForward doc offset).take
                (min (newlinesForward (readForward doc offset)).1 MEBI))) offset st).2⟩) := by
        rw [parseNextLine]
        simp only [assemble_eq hEOF]
        have hcap : ¬ MEBI <
            ((readForward doc offset).take
              (min (newlinesForward (readForward doc offset)).1 MEBI)).length := by
          simp only [List.length_take]
          omega
        rw [if_neg hcap]
      rw [hpnl]
      simp only []
      rw [ih (by omega)]
      rw [readForward] at hEOF hn1 hn1le ⊢
      rw [docLines_cons hEOF, passLines]
      simp only [Option.map_some']
      rw [List.take_take, Nat.min_comm MEBI]
      rw [List.drop_drop]
      rw [show (List.take (newlinesForward (List.drop offset doc)).1 (List.drop offset doc)).length
            = (newlinesForward (List.drop offset doc)).1 from by
          rw [List.length_take, List.length_drop]
          rw [List.length_drop] at hn1le
          omega]

/-! ### Behaviour on an oversized all-`a` line (for C1) -/

/-- The block-comment transition of the sample grammar (`<#` .. `#>`). -/
def blockT : Transition := ⟨Test.Pfx [60, 35], Test.Pfx [35, 62], TokenKind.Comment⟩

theorem newlinesForward_rep97 : ∀ n : Nat,
    newlinesForward (List.replicate n 97) = (n, false) := by
  intro n
  induction n with
  | zero => rfl
  | succ m ih =>
    rw [List.replicate_succ, newlinesForward]
    rw [if_neg (by decide : ¬(97 = 10)), if_neg (by decide : ¬(97 = 13))]
    simp only [ih]

theorem skipWs_rep97 (m : Nat) : skipWs (List.replicate m 97) 0 = 0 := by
  rw [skipWs, List.drop_zero, List.takeWhile_replicate]
  rw [if_neg (by decide : ¬(isWs 97 = true))]
  simp

theorem skipNonWs_rep97 (m : Nat) : skipNonWs (List.replicate m 97) 0 = m := by
  rw [skipNonWs, List.drop_zero, List.takeWhile_replicate]
  rw [if_pos (by decide : (!isWs 97) = true)]
  simp

theorem stripNewline_rep97 (m : Nat) :
    stripNewline (List.replicate m 97) = List.replicate m 97 := by
  by_cases hm : m = 0
  · subst hm; rfl
  · rw [stripNewline]
    simp only [List.getLast?_replicate, if_neg hm]
    rw [if_neg (by decide : ¬(some (97 : Nat) = some 10))]
    simp only [List.getLast?_replicate, if_neg hm]
    rw [if_neg (by decide : ¬(some (97 : Nat) = some 13))]

theorem exitPfx_rep97 {m : Nat} (hm : 1 ≤ m) :
    exitPfxF [35, 62] (List.replicate m 97) (m + 1) 0 = some (false, m) := by
  rw [exitPfxF, skipWs_rep97, List.drop_zero]
  have hpre : ([35, 62] : List Nat).isPrefixOf (List.replicate m 97) = false := by
    obtain ⟨m', rfl⟩ : ∃ m', m = m' + 1 := ⟨m - 1, by omega⟩
    rw [List.replicate_succ]
    rfl
  rw [if_neg (by simp [hpre])]
  rw [skipNonWs_rep97]
  rw [if_neg (by simp)]

theorem scanLine_rep97_open {m : Nat} (hm : 1 ≤ m) (lo : Nat) :
    scanLine (List.replicate m 97) lo blockT = ([⟨lo, lo + m, TokenKind.Comment⟩], blockT) := by
  have hlen : (List.replicate m (97 : Nat)).length = m := List.length_replicate m 97
  have hre : runExit (List.replicate m 97) blockT 0 = some (blockT, m) := by
    rw [runExit]
    simp only [show blockT.exit = Test.Pfx [35, 62] from rfl]
    rw [hlen, exitPfx_rep97 hm]
    rfl
  rw [scanLine, scanLineO, hlen]
  rw [show 2 * m + 2 = (2 * m + 1) + 1 from rfl]
  rw [scanAuxF]
  simp only []
  rw [if_neg (by decide : ¬(blockT.enter = Test.Always))]
  simp only [hre, hlen]
  rw [if_pos (Nat.le_refl m)]
  simp [blockT]

/-! ### Carried states reachable across calls (for C7) -/

/-- The exit phase either resets the state to the default or leaves the
(open `Prefix`-exit) state untouched. -/
theorem runExit_state {line : List Nat} {st : Transition} {i : Nat} {st2 : Transition} {e : Nat}
    (h : runExit line st i = some (st2, e)) :
    st2 = defaultT ∨ (st2 = st ∧ ∃ p, st.exit = Test.Pfx p) := by
  rw [runExit] at h
  match hx : st.exit with
  | Test.Always =>
    rw [hx] at h
    exact Or.inl (congrArg Prod.fst (Option.some.inj h)).symm
  | Test.LineEnd =>
    rw [hx] at h
    exact Or.inl (congrArg Prod.fst (Option.some.inj h)).symm
  | Test.Pfx p =>
    rw [hx] at h
    obtain ⟨⟨b, e'⟩, hfe, hmap⟩ := Option.map_eq_some'.mp h
    have hst2 : (if b = true then defaultT else st) = st2 := congrArg Prod.fst hmap
    cases b with
    | true => exact Or.inl (by simpa using hst2.symm)
    | false => exact Or.inr ⟨by simpa using hst2.symm, p, rfl⟩
  | Test.Word w =>
    rw [hx] at h
    exact Or.inl (congrArg Prod.fst (Option.some.inj h)).symm
  | Test.NonAlpha =>
    rw [hx] at h
    exact Or.inl (congrArg Prod.fst (Option.some.inj h)).symm
  | Test.NonDigit =>
    rw [hx] at h
    exact Or.inl (congrArg Prod.fst (Option.some.inj h)).symm

/-- Every `Prefix` exit literal in the sample grammar is nonempty. -/
def exitOkB (t : Transition) : Bool :=
  match t.exit with
  | Test.Pfx p => !p.isEmpty
  | _ => true

theorem POWERSHELL0_exitOk : POWERSHELL0.all exitOkB = true := by decide

theorem goodCarry_default : GoodCarry defaultT := Or.inl rfl

theorem goodCarry_table {t : Transition} (hm : t ∈ POWERSHELL0)
    (hp : ∃ p, t.exit = Test.Pfx p) : GoodCarry t := by
  obtain ⟨p, hxp⟩ := hp
  have h := List.all_eq_true.mp POWERSHELL0_exitOk t hm
  rw [exitOkB, hxp] at h
  refine Or.inr ⟨p, hxp, ?_⟩
  simpa using h

/-- The matching loop only ever leaves behind the default state or an open
span from the grammar table with a nonempty closing literal. -/
theorem scanAuxF_goodCarry {line : List Nat} {lo : Nat} :
    ∀ {f i : Nat} {st : Transition} {ts : List Token} {stf : Transition},
    GoodCarry st → scanAuxF line lo f i st = some (ts, stf) → GoodCarry stf := by
  intro f
  induction f with
  | zero => intro i st ts stf _ h; simp [scanAuxF] at h
  | succ f ih =>
    intro i st ts stf hG hscan
    rw [scanAuxF] at hscan
    simp only [] at hscan
    have hstep : ∀ (t : Transition) (b k : Nat), ((∃ p, t.exit = Test.Pfx p) → GoodCarry t) →
        (match runExit line t k with
         | none => none
         | some (st2, e) =>
           if line.length ≤ e then some ([(⟨lo + b, lo + e, st2.kind⟩ : Token)], st2)
           else
             match scanAuxF line lo f e st2 with
             | none => none
             | some (ts, stf) => some ((⟨lo + b, lo + e, st2.kind⟩ : Token) :: ts, stf)) =
          some (ts, stf) → GoodCarry stf := by
      intro t b k hGt hs
      match hrx : runExit line t k with
      | none => rw [hrx] at hs; simp at hs
      | some (st2, e) =>
        rw [hrx] at hs
        simp only [] at hs
        have hG2 : GoodCarry st2 := by
          rcases runExit_state hrx with rfl | ⟨rfl, hex⟩
          · exact goodCarry_default
          · exact hGt hex
        by_cases hend : line.length ≤ e
        · rw [if_pos hend] at hs
          obtain rfl : st2 = stf := congrArg Prod.snd (Option.some.inj hs)
          exact hG2
        · rw [if_neg hend] at hs
          match hrr : scanAuxF line lo f e st2 with
          | none => rw [hrr] at hs; simp at hs
          | some (ts', stf') =>
            rw [hrr] at hs
            obtain rfl : stf' = stf := congrArg Prod.snd (Option.some.inj hs)
            exact ih hG2 hrr
    by_cases hA : st.enter = Test.Always
    · rw [if_pos hA] at hscan
      match hm : enterLoopF line (line.length + 1) i with
      | none => rw [hm] at hscan; simp at hscan
      | some EnterRes.lineDone =>
        rw [hm] at hscan
        simp only [] at hscan
        obtain rfl : st = stf := congrArg Prod.snd (Option.some.inj hscan)
        exact hG
      | some (EnterRes.matched t b k) =>
        rw [hm] at hscan
        simp only [] at hscan
        obtain ⟨_, _, hme⟩ := enterLoopF_matched hm
        obtain ⟨hmem, _⟩ := matchEnter_cases hme
        exact hstep t b k (goodCarry_table hmem) hscan
      | some (EnterRes.trailing b k) =>
        rw [hm] at hscan
        simp only [] at hscan
        exact hstep st b k (fun _ => hG) hscan
    · rw [if_neg hA] at hscan
      exact hstep st i i (fun _ => hG) hscan


/-- The kind discipline the source's push site actually implements: every
token except possibly the last is `Other`, and the last token's kind is the
kind of the carried state after the call (so it is `Other` whenever the
span closed, and the open transition's declared kind otherwise). -/
def KindsOkay (ts : List Token) (stf : Transition) : Prop :=
  (∀ u ∈ ts.dropLast, u.kind = TokenKind.Other) ∧
  (stf = defaultT → ∀ u ∈ ts, u.kind = TokenKind.Other) ∧
  (∀ u, ts.getLast? = some u → u.kind = stf.kind)

/-! ### Concrete documents used by the claims -/

/-- The bytes of `if ($x -eq 1) { return }`. -/
def c2doc : List Nat :=
  [105, 102, 32, 40, 36, 120, 32, 45, 101, 113, 32, 49, 41, 32, 123, 32,
   114, 101, 116, 117, 114, 110, 32, 125]

/-- The bytes of `# comment text`. -/
def c3doc : List Nat := [35, 32, 99, 111, 109, 109, 101, 110, 116, 32, 116, 101, 120, 116]

/-- The bytes of `<# start` + LF + `still inside #> code`. -/
def c4doc : List Nat :=
  [60, 35, 32, 115, 116, 97, 114, 116, 10,
   115, 116, 105, 108, 108, 32, 105, 110, 115, 105, 100, 101, 32, 35, 62, 32, 99, 111, 100, 101]

/-- The bytes of `foo`. -/
def c5doc : List Nat := [102, 111, 111]

/-- The bytes of `ab cd`. -/
def c5line : List Nat := [97, 98, 32, 99, 100]

/-! ### The claims -/

/-- C1: the spec claims a single logical line longer than 1 MiB yields zero
tokens and resets the carried span state.  The code instead truncates the
accumulated buffer to exactly `MEBI` bytes (`end = off.min(MEBI - len)`),
so the `line_buf.len() > MEBI` reset branch is unreachable: on a document
that is one `n`-byte line of `a`s (`n > MEBI`) scanned with an open block
comment carried in, `parse_next_line` emits a Comment token covering the
truncated first MiB and leaves the span open instead of returning no
tokens and resetting. -/
theorem C1_cap_divergence (n : Nat) (hn : MEBI < n) :
    parseNextLine (List.replicate n 97) ⟨0, 0, blockT⟩ =
      ([⟨0, MEBI, TokenKind.Comment⟩], ⟨n, 0, blockT⟩) := by
  have hne : readForward (List.replicate n 97) 0 ≠ [] := by
    rw [readForward, List.drop_zero]
    intro hc
    have := congrArg List.length hc
    simp at this
    omega
  rw [parseNextLine]
  simp only [assemble_eq hne]
  simp only [readForward, List.drop_zero, newlinesForward_rep97]
  rw [List.take_replicate, show min (min n MEBI) n = MEBI from by omega]
  rw [List.length_replicate]
  rw [if_neg (by omega : ¬ MEBI < MEBI)]
  rw [stripNewline_rep97]
  rw [scanLine_rep97_open (by rw [MEBI]; omega : 1 ≤ MEBI) 0]
  simp

theorem C1_cap_divergence_witness :
    MEBI < MEBI + 1 ∧
    parseNextLine (List.replicate (MEBI + 1) 97) ⟨0, 0, blockT⟩ =
      ([⟨0, MEBI, TokenKind.Comment⟩], ⟨MEBI + 1, 0, blockT⟩) :=
  ⟨by omega, C1_cap_divergence (MEBI + 1) (by omega)⟩

/-- C2 (counterexample): the spec's scenario for `if ($x -eq 1) { return }`
claims three tokens (`if`→Keyword, `$x`→Variable, `return`→Keyword); the
code emits no such sequence. -/
theorem C2_counterexample :
    (parseNextLine c2doc ⟨0, 0, defaultT⟩).1 ≠
      [⟨0, 2, TokenKind.Keyword⟩, ⟨4, 6, TokenKind.Variable⟩, ⟨16, 22, TokenKind.Keyword⟩] := by
  decide

/-- C2 (amended): on `if ($x -eq 1) { return }` from the default state the
code emits exactly two tokens, both of kind Other: one covering the `-` of
`-eq` (the only `Prefix` operator match) and one covering the trailing `}`
(an unmatched word that reached end of line); `if`, `$x` and `return`
produce no tokens because `Word` enter tests are never evaluated and `$`
is only tried at whitespace-delimited word starts. -/
theorem C2_amended :
    parseNextLine c2doc ⟨0, 0, defaultT⟩ =
      ([⟨7, 8, TokenKind.Other⟩, ⟨23, 24, TokenKind.Other⟩], ⟨24, 0, defaultT⟩) := by
  decide

/-- C3: on `# comment text` from the default state the code emits a single
token spanning the whole line and leaves the default state, but its kind is
`Other`, not `Comment`: the exit phase resets `self.state` to the default
before the token is pushed with `self.state.kind`. -/
theorem C3_eval :
    parseNextLine c3doc ⟨0, 0, defaultT⟩ =
      ([⟨0, 14, TokenKind.Other⟩], ⟨14, 0, defaultT⟩) := by
  decide

/-- C4: scanning `<# start` from the default state emits the claimed
Comment token over the whole line and leaves the block-comment span open;
scanning the next line `still inside #> code` emits a token from the line
start through `#>` and then scans the remainder from the default state,
but that closing token has kind `Other`, not `Comment`, because the carried
state is reset before the push. -/
theorem C4_eval :
    parseNextLine c4doc ⟨0, 0, defaultT⟩ = ([⟨0, 8, TokenKind.Comment⟩], ⟨9, 0, blockT⟩) ∧
    parseNextLine c4doc ⟨9, 0, blockT⟩ =
      ([⟨9, 24, TokenKind.Other⟩, ⟨25, 29, TokenKind.Other⟩], ⟨29, 1, defaultT⟩) :=
  ⟨by decide, by decide⟩

/-- C5 (counterexample): `foo` is a maximal non-whitespace run matched by
no enter test, yet the scan emits a token of kind Other covering exactly
that run (the trailing-word fall-through into the exit phase of the
default state). -/
theorem C5_counterexample :
    matchEnter c5doc 0 POWERSHELL0 = none ∧
    (parseNextLine c5doc ⟨0, 0, defaultT⟩).1 = [⟨0, 3, TokenKind.Other⟩] :=
  ⟨by decide, by decide⟩

/-- C5 (amended): an unmatched maximal non-whitespace run is skipped with
no token emitted and the enter phase restarts at the next word — unless
the run reaches the end of the line, in which case the exit phase of the
(still default) carried state emits a single token of kind Other covering
that final run. -/
theorem C5_amended (line : List Nat) (lo i f : Nat)
    (h1 : skipWs line i < line.length)
    (h2 : matchEnter line (skipWs line i) POWERSHELL0 = none) :
    (skipNonWs line (skipWs line i) < line.length →
      scanAuxF line lo f i defaultT =
        scanAuxF line lo f (skipNonWs line (skipWs line i)) defaultT) ∧
    (line.length ≤ skipNonWs line (skipWs line i) →
      ∀ g, scanAuxF line lo (g + 1) i defaultT =
        some ([⟨lo + skipWs line i, lo + skipNonWs line (skipWs line i), TokenKind.Other⟩],
          defaultT)) := by
  obtain ⟨b, r, hd, hb⟩ := skipWs_head line h1
  have hkgt : skipWs line i < skipNonWs line (skipWs line i) := skipNonWs_gt line hd hb
  constructor
  · intro hk
    match f with
    | 0 => rfl
    | f + 1 =>
      rw [scanAuxF, scanAuxF]
      simp only [if_pos (show defaultT.enter = Test.Always from rfl)]
      have hL : enterLoopF line (line.length + 1) i =
          enterLoopF line line.length (skipNonWs line (skipWs line i)) := by
        rw [enterLoopF]
        rw [if_pos h1]
        simp only [h2]
        rw [if_pos hk]
      rw [hL, @enterLoopF_irrel line line.length (line.length + 1)
        (skipNonWs line (skipWs line i)) (by omega) (by omega)]
  · intro hk g
    rw [scanAuxF]
    simp only [if_pos (show defaultT.enter = Test.Always from rfl)]
    have hL : enterLoopF line (line.length + 1) i =
        some (EnterRes.trailing (skipWs line i) (skipNonWs line (skipWs line i))) := by
      rw [enterLoopF]
      rw [if_pos h1]
      simp only [h2]
      rw [if_neg (by omega : ¬ skipNonWs line (skipWs line i) < line.length)]
    simp only [hL]
    have hre : runExit line defaultT (skipNonWs line (skipWs line i)) =
        some (defaultT, skipNonWs line (skipWs line i)) := rfl
    simp only [hre]
    rw [if_pos hk]
    rfl

theorem C5_amended_witness :
    skipWs c5line 0 < c5line.length ∧
    matchEnter c5line (skipWs c5line 0) POWERSHELL0 = none ∧
    scanAuxF c5line 0 12 0 defaultT =
      scanAuxF c5line 0 12 (skipNonWs c5line (skipWs c5line 0)) defaultT :=
  ⟨by decide, by decide,
    (C5_amended c5line 0 0 12 (by decide) (by decide)).1 (by decide)⟩

/-- C6: repeatedly calling `parse_next_line` from the initial parser state
(offset 0, line 0, no open span) until the document is exhausted, and
concatenating the per-line token sequences, reproduces exactly the single
continuous top-to-bottom pass over the document's logical lines. -/
theorem C6_resumable (doc : List Nat) :
    parseAllF doc (doc.length + 1) ⟨0, 0, defaultT⟩ = some (continuousScan doc) := by
  rw [continuousScan]
  have h := @parseAllF_eq_passLines doc (doc.length + 1) 0 0 defaultT (by omega)
  rw [List.drop_zero] at h
  exact h

/-- C7: the token sequence of any `parse_next_line` call whose carried
state is reachable (default, or an open span with a nonempty closing
literal — `GoodCarry`) is strictly increasing, non-overlapping, and
contained in the byte bounds of the scanned (assembled and stripped) line;
moreover `GoodCarry` is preserved by the call, so every call in a run
started from the default state satisfies it. -/
theorem C7_token_ranges (doc : List Nat) (p : Parser) (hG : GoodCarry p.state) :
    TokensOkay p.offset (assembledLine doc p.offset).length (parseNextLine doc p).1 ∧
    GoodCarry (parseNextLine doc p).2.state := by
  match hasm : assembleF doc p.offset with
  | none =>
    rw [parseNextLine]
    simp only [hasm]
    exact ⟨⟨List.Pairwise.nil, by simp⟩, hG⟩
  | some (buf, offset') =>
    rw [parseNextLine]
    simp only [hasm]
    by_cases hcap : MEBI < buf.length
    · rw [if_pos hcap]
      exact ⟨⟨List.Pairwise.nil, by simp⟩, goodCarry_default⟩
    · rw [if_neg hcap]
      simp only []
      have hEO : p.state.enter = Test.Always ∨ ∃ q, p.state.exit = Test.Pfx q ∧ q ≠ [] := by
        rcases hG with hd | hex
        · exact Or.inl (by rw [hd]; rfl)
        · exact Or.inr hex
      obtain ⟨⟨ts, stf⟩, hs⟩ := Option.isSome_iff_exists.mp
        (@scanAuxF_isSome (stripNewline buf) p.offset (2 * (stripNewline buf).length + 2) 0
          p.state (Nat.zero_le _) (by have := ebit_le p.state; omega))
      have hsl : scanLine (stripNewline buf) p.offset p.state = (ts, stf) := by
        rw [scanLine, scanLineO, hs]
        rfl
      rw [hsl]
      obtain ⟨hbd, hpw⟩ := scanAuxF_tokensOk (Nat.zero_le _) hEO hs
      have hal : assembledLine doc p.offset = stripNewline buf := by
        rw [assembledLine, hasm]
      rw [hal]
      refine ⟨⟨hpw, ?_⟩, scanAuxF_goodCarry hG hs⟩
      intro u hu
      have := hbd u hu
      omega

theorem C7_token_ranges_witness :
    TokensOkay 0 (assembledLine c2doc 0).length (parseNextLine c2doc ⟨0, 0, defaultT⟩).1 ∧
    GoodCarry (parseNextLine c2doc ⟨0, 0, defaultT⟩).2.state :=
  C7_token_ranges c2doc ⟨0, 0, defaultT⟩ (Or.inl rfl)

/-- C8: the matching loop of `parse_next_line` terminates on every
bounded-length line and carried state: the fuelled embedding of the
`'outer` loop completes (returns a result rather than exhausting its fuel)
whenever it is given at least `2·len + 2` iterations, one per phase
advance. -/
theorem C8_terminates (line : List Nat) (lo f : Nat) (st : Transition)
    (h : 2 * line.length + 2 ≤ f) :
    (scanAuxF line lo f 0 st).isSome = true :=
  scanAuxF_isSome (Nat.zero_le _) (by have := ebit_le st; omega)

theorem C8_terminates_witness :
    2 * ([97] : List Nat).length + 2 ≤ 4 ∧ (scanAuxF [97] 0 4 0 defaultT).isSome = true :=
  ⟨by decide, C8_terminates [97] 0 4 defaultT (by decide)⟩

/-- C9: when the document is exhausted (`read_forward` returns an empty
chunk at the start of the call), `parse_next_line` returns an empty token
sequence and leaves the parser — offset, logical line counter, and carried
span state — unchanged. -/
theorem C9_eof_frame (doc : List Nat) (p : Parser) (h : readForward doc p.offset = []) :
    parseNextLine doc p = ([], p) := by
  have hasm : assembleF doc p.offset = none := by
    rw [assembleF, if_pos h]
  rw [parseNextLine]
  simp only [hasm]

theorem C9_eof_frame_witness :
    readForward ([] : List Nat) 0 = [] ∧
    parseNextLine [] ⟨0, 0, defaultT⟩ = ([], ⟨0, 0, defaultT⟩) :=
  ⟨rfl, C9_eof_frame [] ⟨0, 0, defaultT⟩ rfl⟩

/-- C10: every token whose span closes within the scanned line is pushed
with kind `Other` (the carried state is reset to the default transition
before the push reads `self.state.kind`); only a final token whose span
stays open past end of line carries its transition's declared kind. -/
theorem C10_kind_after_reset (line : List Nat) (lo : Nat) (st : Transition)
    (ts : List Token) (stf : Transition) (h : scanLine line lo st = (ts, stf)) :
    KindsOkay ts stf := by
  obtain ⟨⟨ts', stf'⟩, hs⟩ := Option.isSome_iff_exists.mp
    (@scanAuxF_isSome line lo (2 * line.length + 2) 0 st (Nat.zero_le _)
      (by have := ebit_le st; omega))
  have hsl : scanLine line lo st = (ts', stf') := by
    rw [scanLine, scanLineO, hs]
    rfl
  rw [h] at hsl
  obtain ⟨rfl, rfl⟩ : ts = ts' ∧ stf = stf' := by
    constructor <;> [exact congrArg Prod.fst hsl; exact congrArg Prod.snd hsl]
  obtain ⟨h1, h2, _⟩ := scanAuxF_kinds hs
  refine ⟨h1, ?_, h2⟩
  intro hdef u hu
  rcases List.eq_nil_or_concat ts with rfl | ⟨l', a, hts⟩
  · simp at hu
  · rw [List.concat_eq_append] at hts
    subst hts
    rcases List.mem_append.mp hu with hu' | hu'
    · apply h1
      rw [List.dropLast_concat]
      exact hu'
    · rw [List.mem_singleton] at hu'
      subst hu'
      have := h2 u (List.getLast?_concat l')
      rw [this, hdef]
      rfl

theorem C10_kind_after_reset_witness :
    KindsOkay [⟨0, 2, TokenKind.Other⟩] defaultT :=
  C10_kind_after_reset [35, 97] 0 defaultT [⟨0, 2, TokenKind.Other⟩] defaultT (by decide)

end Highlighter
